import Mathlib

/-! Power-of-two-random-choices backend selection

A shallow embedding of `pkg/server/service/loadbalancer/twochoices.go` and of
`pkg/types/strategy.go`.

* A backend (`*namedHandler`) is the record of the two fields the selector reads:
  its `name` and the current value of its `inflight` counter. Registered backends are
  non-nil pointers, so a pool is a list of such records.
* The health set (`map[string]struct{}`) is the list of its keys in the order in which
  `range` visits them; `len(status)` is the length of that list and `status[k]` is
  membership.
* The sampler (`s.rand`) is the list of the values its next calls of `IntN` return.
  A finite list is a finite prefix of the sampler's output: when it is used up the
  loop is still running (`Outcome.looping`).
* The entropy block read by `newRand` (`[16]byte`) is a function `Fin 16 → Fin 256`.
* For the question which state a call changes, `nextServerMem` runs the same statements
  on a `Memory` that holds the backend list, the health set and the sampler together.
-/

namespace Types

/-- The constant `BalancingStrategyWRR` of `pkg/types/strategy.go`. -/
def BalancingStrategyWRR : String := "wrr"

/-- The constant `BalancingStrategyP2C` of `pkg/types/strategy.go`. -/
def BalancingStrategyP2C : String := "p2c"

/-- The function `ValidBalancingStrategy` (strategy.go, lines 8-14): a `switch` on the
string with one `case` listing the two constants, and `return false` after it. -/
def ValidBalancingStrategy (strategy : String) : Bool :=
  if strategy = BalancingStrategyWRR then true
  else if strategy = BalancingStrategyP2C then true
  else false

end Types

namespace Loadbalancer

/-- The backend record: the fields of `namedHandler` that `twochoices.go` reads. -/
structure namedHandler where
  name : String
  inflight : Int
deriving DecidableEq, Repr

/-- The selector: the ordered list of registered backends and the sampler, given as the
values that its coming `IntN` calls return. -/
structure strategyTwoRandomChoices where
  handlers : List namedHandler
  rand : List Nat
deriving DecidableEq, Repr

/-- What a call of `nextServer` has done once the listed sampler values are used up:
it returned a backend, it panicked, or it is still inside the `for` loop. -/
inductive Outcome where
  | returned (h : namedHandler)
  | panicked
  | looping
deriving DecidableEq, Repr

/-- The `for { ... }` loop of `nextServer` (lines 45-62), run on the sampler values
`draws`; the second component is what is left of the sampler.

* `s.rand.IntN(len(s.handlers))` panics when the bound is `0` (math/rand/v2: "It panics
  if n <= 0"), before any value is produced.
* Both draws are made before they are compared; equal draws `continue`.
* `s.handlers[n1]`, `s.handlers[n2]` panic when an index is outside the slice.
* The pair is swapped when `h2.inflight.Load() < h1.inflight.Load()`, then `h1` is
  returned if `status[h1.name]` is present, otherwise the loop `continue`s. -/
def retryLoop (handlers : List namedHandler) (status : List String) :
    List Nat → Outcome × List Nat
  | n1 :: n2 :: rest =>
    if handlers.length = 0 then (Outcome.panicked, n1 :: n2 :: rest)
    else if n1 = n2 then retryLoop handlers status rest
    else
      match handlers[n1]?, handlers[n2]? with
      | some h1, some h2 =>
        let p : namedHandler × namedHandler :=
          if h2.inflight < h1.inflight then (h2, h1) else (h1, h2)
        if p.1.name ∈ status then (Outcome.returned p.1, rest)
        else retryLoop handlers status rest
      | _, _ => (Outcome.panicked, rest)
  | draws =>
    if handlers.length = 0 then (Outcome.panicked, draws) else (Outcome.looping, draws)

namespace strategyTwoRandomChoices

/-- The `if len(status) == 1 { ... }` block of `nextServer` (lines 33-43): `healthy` is
the last key visited by `range status`, and the pool is scanned from the front for a
backend of that name. `none` means that the block falls through to the loop. -/
def fastPath (s : strategyTwoRandomChoices) (status : List String) : Option namedHandler :=
  if status.length = 1 then
    let healthy := status.foldl (fun _ name => name) ""
    s.handlers.find? (fun h => h.name == healthy)
  else none

/-- The method `nextServer` (lines 30-63): the outcome of the call and the selector
after it. -/
def nextServer (s : strategyTwoRandomChoices) (status : List String) :
    Outcome × strategyTwoRandomChoices :=
  match fastPath s status with
  | some h => (Outcome.returned h, s)
  | none =>
    let r := retryLoop s.handlers status s.rand
    (r.1, { s with rand := r.2 })

/-- The method `add` (lines 65-67): `append(s.handlers, h)`. -/
def add (s : strategyTwoRandomChoices) (h : namedHandler) : strategyTwoRandomChoices :=
  { s with handlers := s.handlers ++ [h] }

/-- The method `len` (lines 73-75). -/
def len (s : strategyTwoRandomChoices) : Nat :=
  s.handlers.length

end strategyTwoRandomChoices

open strategyTwoRandomChoices

/-- The loop `for i := 0; i < 16; i += 8 { ... }` of `newRand` (lines 84-87), entered
with loop index `i` and the current `(seed1, seed2)`. Both variables are `uint64`, so the
shift and the sum wrap at `2 ^ 64`. `fuel` bounds the number of passes; `none` means that
the fuel ran out or that `seed[i+1]` fell outside the array. -/
def seedLoop (seed : Fin 16 → Fin 256) : Nat → Nat → Nat × Nat → Option (Nat × Nat)
  | 0, _, _ => none
  | fuel + 1, i, (seed1, seed2) =>
    if h : i < 16 then
      if h2 : i + 1 < 16 then
        seedLoop seed fuel (i + 8)
          (((seed1 * 2 ^ 8) % 2 ^ 64 + (seed ⟨i, h⟩).val) % 2 ^ 64,
            ((seed2 * 2 ^ 8) % 2 ^ 64 + (seed ⟨i + 1, h2⟩).val) % 2 ^ 64)
      else none
    else some (seed1, seed2)

/-- The function `newRand` (lines 77-89), as the pair `(seed1, seed2)` that it hands to
`rand.NewPCG`. The argument is what `crand.Read` delivered: `none` is a read error, on
which `newRand` panics, `some seed` the 16 bytes read. The index grows by 8 on every pass
and the loop stops at 16, so 17 passes of fuel are never used up. -/
def newRand (read : Option (Fin 16 → Fin 256)) : Option (Nat × Nat) :=
  match read with
  | none => none
  | some seed => seedLoop seed 17 0 (0, 0)

/-- Everything a call of `nextServer` can reach: the backend list of the selector with
the fields of every backend (`s.handlers`), the health set passed in (`status`) and the
sampler (`s.rand`). -/
structure Memory where
  handlers : List namedHandler
  status : List String
  rand : List Nat
deriving DecidableEq, Repr

/-- The `for { ... }` loop of `nextServer` (lines 45-62) as a transformer of the whole
memory: the same statements as in `retryLoop`, but every exit hands back the backend list
and the health set as the loop leaves them, next to what is left of the sampler. The
statements of the loop read `s.handlers`, the in-flight counters and `status`; the only
one that writes is `s.rand.IntN`, and `h1, h2 = h2, h1` swaps two local variables. -/
def retryLoopMem (handlers : List namedHandler) (status : List String) :
    List Nat → Outcome × Memory
  | n1 :: n2 :: rest =>
    if handlers.length = 0 then (Outcome.panicked, ⟨handlers, status, n1 :: n2 :: rest⟩)
    else if n1 = n2 then retryLoopMem handlers status rest
    else
      match handlers[n1]?, handlers[n2]? with
      | some h1, some h2 =>
        let p : namedHandler × namedHandler :=
          if h2.inflight < h1.inflight then (h2, h1) else (h1, h2)
        if p.1.name ∈ status then (Outcome.returned p.1, ⟨handlers, status, rest⟩)
        else retryLoopMem handlers status rest
      | _, _ => (Outcome.panicked, ⟨handlers, status, rest⟩)
  | draws =>
    if handlers.length = 0 then (Outcome.panicked, ⟨handlers, status, draws⟩)
    else (Outcome.looping, ⟨handlers, status, draws⟩)

/-- The method `nextServer` (lines 30-63) as a transformer of the whole memory: the
outcome of the call and the memory after it. -/
def nextServerMem (m : Memory) : Outcome × Memory :=
  if m.status.length = 1 then
    let healthy := m.status.foldl (fun _ name => name) ""
    match m.handlers.find? (fun h => h.name == healthy) with
    | some h => (Outcome.returned h, m)
    | none => retryLoopMem m.handlers m.status m.rand
  else retryLoopMem m.handlers m.status m.rand

/-! ## The general case as the specification words it

The next four definitions do not come from the code: they spell out "consume the draws
two at a time and return the less-loaded backend of the first accepted pair", to be
compared with `retryLoop`. -/

/-- The sampler values grouped two at a time; a last value without a partner forms no
pair. -/
def drawPairs : List Nat → List (Nat × Nat)
  | n1 :: n2 :: rest => (n1, n2) :: drawPairs rest
  | _ => []

/-- The less-loaded backend of a pair of positions: the second one if its in-flight count
is strictly smaller than that of the first, otherwise the first one. -/
def lessLoaded (handlers : List namedHandler) (p : Nat × Nat) : Option namedHandler :=
  match handlers[p.1]?, handlers[p.2]? with
  | some h1, some h2 => some (if h2.inflight < h1.inflight then h2 else h1)
  | _, _ => none

/-- A pair is accepted iff its two positions differ and the name of its less-loaded
backend is in the health set. -/
def accepted (handlers : List namedHandler) (status : List String) (p : Nat × Nat) : Bool :=
  decide (p.1 ≠ p.2) &&
    match lessLoaded handlers p with
    | some h => decide (h.name ∈ status)
    | none => false

/-- The less-loaded backend of the first accepted pair, if there is one. -/
def firstAccepted (handlers : List namedHandler) (status : List String)
    (draws : List Nat) : Option namedHandler :=
  ((drawPairs draws).find? (accepted handlers status)).bind (lessLoaded handlers)

/-! ## Unfolding the loop -/

theorem list_pairs_induction {P : List Nat → Prop} (h0 : P []) (h1 : ∀ d, P [d])
    (h2 : ∀ a b rest, P rest → P (a :: b :: rest)) : ∀ l, P l
  | [] => h0
  | [d] => h1 d
  | a :: b :: rest => h2 a b rest (list_pairs_induction h0 h1 h2 rest)

theorem retryLoop_nil (handlers : List namedHandler) (status : List String) :
    retryLoop handlers status [] =
      if handlers.length = 0 then (Outcome.panicked, []) else (Outcome.looping, []) := by
  simp [retryLoop]

theorem retryLoop_single (handlers : List namedHandler) (status : List String) (d : Nat) :
    retryLoop handlers status [d] =
      if handlers.length = 0 then (Outcome.panicked, [d]) else (Outcome.looping, [d]) := by
  simp [retryLoop]

theorem retryLoop_same (handlers : List namedHandler) (status : List String) (n : Nat)
    (rest : List Nat) (hne : handlers ≠ []) :
    retryLoop handlers status (n :: n :: rest) = retryLoop handlers status rest := by
  have : handlers.length ≠ 0 := by simpa using hne
  simp [retryLoop, this]

theorem retryLoop_pair (handlers : List namedHandler) (status : List String) (n1 n2 : Nat)
    (rest : List Nat) (h1 h2 : namedHandler) (hne : n1 ≠ n2)
    (e1 : handlers[n1]? = some h1) (e2 : handlers[n2]? = some h2) :
    retryLoop handlers status (n1 :: n2 :: rest) =
      if (if h2.inflight < h1.inflight then h2 else h1).name ∈ status
      then (Outcome.returned (if h2.inflight < h1.inflight then h2 else h1), rest)
      else retryLoop handlers status rest := by
  have hl : handlers.length ≠ 0 := by
    intro h0
    have : handlers = [] := List.length_eq_zero.mp h0
    subst this
    simp at e1
  rw [retryLoop]
  simp only [hl, hne, if_false, e1, e2]
  by_cases hlt : h2.inflight < h1.inflight <;> simp [hlt]

/-- Whatever the loop returns came from a pair of distinct draws at an even offset: it is
the first-drawn backend unless the second one has strictly fewer requests in flight, its
name is in the health set, and the sampler is left right after that pair. -/
theorem retryLoop_returned (handlers : List namedHandler) (status : List String) :
    ∀ (draws : List Nat) (h : namedHandler) (rest : List Nat),
      retryLoop handlers status draws = (Outcome.returned h, rest) →
      ∃ pre n1 n2 h1 h2, draws = pre ++ n1 :: n2 :: rest ∧ Even pre.length ∧ n1 ≠ n2 ∧
        handlers[n1]? = some h1 ∧ handlers[n2]? = some h2 ∧
        h = (if h2.inflight < h1.inflight then h2 else h1) ∧ h.name ∈ status := by
  intro draws
  induction draws using list_pairs_induction with
  | h0 => intro h rest hr; rw [retryLoop_nil] at hr; split at hr <;> simp at hr
  | h1 d => intro h rest hr; rw [retryLoop_single] at hr; split at hr <;> simp at hr
  | h2 a b tl ih =>
    intro h rest hr
    have step : retryLoop handlers status tl = (Outcome.returned h, rest) →
        ∃ pre n1 n2 h1 h2, a :: b :: tl = pre ++ n1 :: n2 :: rest ∧ Even pre.length ∧
          n1 ≠ n2 ∧ handlers[n1]? = some h1 ∧ handlers[n2]? = some h2 ∧
          h = (if h2.inflight < h1.inflight then h2 else h1) ∧ h.name ∈ status := by
      intro hr2
      obtain ⟨pre, n1, n2, h1, h2, e, ev, hne, e1, e2, eh, hm⟩ := ih h rest hr2
      refine ⟨a :: b :: pre, n1, n2, h1, h2, by simp [e], ?_, hne, e1, e2, eh, hm⟩
      simp only [List.length_cons]
      exact (ev.add_one).add_one
    by_cases hl : handlers.length = 0
    · simp [retryLoop, hl] at hr
    by_cases hab : a = b
    · subst hab
      rw [retryLoop_same _ _ _ _ (by simpa using hl)] at hr
      exact step hr
    cases e1 : handlers[a]? with
    | none => simp [retryLoop, hl, hab, e1] at hr
    | some h1 =>
      cases e2 : handlers[b]? with
      | none => simp [retryLoop, hl, hab, e1, e2] at hr
      | some h2 =>
        rw [retryLoop_pair _ _ _ _ _ _ _ hab e1 e2] at hr
        by_cases hm : (if h2.inflight < h1.inflight then h2 else h1).name ∈ status
        · rw [if_pos hm] at hr
          simp only [Prod.mk.injEq, Outcome.returned.injEq] at hr
          refine ⟨[], a, b, h1, h2, by simp [hr.2], by simp, hab, e1, e2, hr.1.symm, ?_⟩
          rw [← hr.1]; exact hm
        · rw [if_neg hm] at hr
          exact step hr

/-! ## The fast path and the whole call -/

theorem foldl_last_singleton (x : String) :
    [x].foldl (fun _ name => name) "" = x := rfl

/-- When the fast path returns, the health set is the single name of the returned backend,
which is the first registered backend of that name. -/
theorem fastPath_some (s : strategyTwoRandomChoices) (status : List String) (h : namedHandler)
    (hf : fastPath s status = some h) :
    status = [h.name] ∧ h ∈ s.handlers ∧
      s.handlers.find? (fun k => k.name == h.name) = some h := by
  unfold fastPath at hf
  split at hf
  · next hlen =>
    obtain ⟨x, rfl⟩ := List.length_eq_one.mp hlen
    simp only [foldl_last_singleton] at hf
    have hx : h.name = x := by simpa using List.find?_some hf
    subst hx
    exact ⟨rfl, List.mem_of_find?_eq_some hf, hf⟩
  · simp at hf

theorem fastPath_singleton (s : strategyTwoRandomChoices) (x : String) :
    fastPath s [x] = s.handlers.find? (fun k => k.name == x) := by
  simp [fastPath]

theorem fastPath_of_length_ne_one (s : strategyTwoRandomChoices) (status : List String)
    (hlen : status.length ≠ 1) : fastPath s status = none := by
  simp [fastPath, hlen]

theorem nextServer_fast (s : strategyTwoRandomChoices) (status : List String)
    (h : namedHandler) (hf : fastPath s status = some h) :
    nextServer s status = (Outcome.returned h, s) := by
  simp [nextServer, hf]

theorem nextServer_slow (s : strategyTwoRandomChoices) (status : List String)
    (hf : fastPath s status = none) :
    nextServer s status =
      ((retryLoop s.handlers status s.rand).1,
        { s with rand := (retryLoop s.handlers status s.rand).2 }) := by
  simp [nextServer, hf]

/-- The two ways in which a call returns a backend. -/
theorem nextServer_returned_cases (s : strategyTwoRandomChoices) (status : List String)
    (h : namedHandler) (hr : (nextServer s status).1 = Outcome.returned h) :
    fastPath s status = some h ∨
      (fastPath s status = none ∧
        retryLoop s.handlers status s.rand = (Outcome.returned h, (nextServer s status).2.rand)) := by
  cases hf : fastPath s status with
  | some k =>
    left
    rw [nextServer_fast s status k hf] at hr
    simpa using hr
  | none =>
    right
    rw [nextServer_slow s status hf] at hr ⊢
    exact ⟨rfl, Prod.ext hr rfl⟩

theorem mem_of_getElem?_some {l : List namedHandler} {i : Nat} {h : namedHandler}
    (e : l[i]? = some h) : h ∈ l :=
  List.getElem?_mem e

/-! ## Claims about what is returned -/

/-- Claim C1: whenever `nextServer` returns a backend, through the fast path or through the
retry loop, the name of that backend is in the health set, for every pool, every health
set and every sequence of sampler values. -/
theorem nextServer_returned_name_mem_status (s : strategyTwoRandomChoices)
    (status : List String) (h : namedHandler)
    (hr : (nextServer s status).1 = Outcome.returned h) : h.name ∈ status := by
  rcases nextServer_returned_cases s status h hr with hf | ⟨_, hl⟩
  · rw [(fastPath_some s status h hf).1]; simp
  · obtain ⟨_, _, _, _, _, _, _, _, _, _, _, hm⟩ := retryLoop_returned _ _ _ _ _ hl
    exact hm

theorem nextServer_returned_name_mem_status_witness :
    (nextServer ⟨[⟨"a", 0⟩, ⟨"b", 10⟩, ⟨"c", 0⟩], [0, 1, 1, 2]⟩ ["b", "c"]).1
        = Outcome.returned ⟨"c", 0⟩ ∧
      (⟨"c", 0⟩ : namedHandler).name ∈ ["b", "c"] :=
  ⟨by decide, nextServer_returned_name_mem_status
    ⟨[⟨"a", 0⟩, ⟨"b", 10⟩, ⟨"c", 0⟩], [0, 1, 1, 2]⟩ ["b", "c"] ⟨"c", 0⟩ (by decide)⟩

theorem find_name_cons (x : String) (c : namedHandler) (l : List namedHandler) :
    (c :: l).find? (fun k => k.name == x) =
      if c.name = x then some c else l.find? (fun k => k.name == x) := by
  by_cases hc : c.name = x
  · have hb : (c.name == x) = true := by simpa using hc
    simp [List.find?, hb, hc]
  · have hb : (c.name == x) = false := by simpa using hc
    simp [List.find?, hb, hc]

/-- Two pools that carry the same names in the same order are scanned alike: the first
backend of a given name sits at the same position in both. -/
theorem find_name_same_position (x : String) :
    ∀ (l1 l2 : List namedHandler) (h : namedHandler),
      l2.map (fun k => k.name) = l1.map (fun k => k.name) →
      l1.find? (fun k => k.name == x) = some h →
      ∃ (h2 : namedHandler) (i : Nat), l2.find? (fun k => k.name == x) = some h2 ∧ h2.name = x ∧
        l1[i]? = some h ∧ l2[i]? = some h2 := by
  intro l1
  induction l1 with
  | nil => intro l2 h _ hf; simp at hf
  | cons a tl ih =>
    intro l2 h hm hf
    cases l2 with
    | nil => simp at hm
    | cons b tl2 =>
      simp only [List.map_cons, List.cons.injEq] at hm
      by_cases hax : a.name = x
      · have hbx : b.name = x := by rw [hm.1]; exact hax
        rw [find_name_cons, if_pos hax] at hf
        have : a = h := by simpa using hf
        subst this
        exact ⟨b, 0, by rw [find_name_cons, if_pos hbx], hbx, by simp, by simp⟩
      · have hbx : ¬ b.name = x := by rw [hm.1]; exact hax
        rw [find_name_cons, if_neg hax] at hf
        obtain ⟨h2, i, e, en, e1, e2⟩ := ih tl2 h hm.2 hf
        refine ⟨h2, i + 1, ?_, en, by simpa using e1, by simpa using e2⟩
        rw [find_name_cons, if_neg hbx]; exact e

/-- Claim C3: if the health set is exactly one name and a backend of that name is
registered, `nextServer` returns a registered backend of that name and leaves the sampler
untouched (no value is drawn); a second selector with the same names in the same order,
whatever its in-flight counts and its sampler, returns the backend at the same position. -/
theorem nextServer_single_healthy (s : strategyTwoRandomChoices) (x : String)
    (hreg : ∃ h ∈ s.handlers, h.name = x) :
    ∃ h ∈ s.handlers, h.name = x ∧ nextServer s [x] = (Outcome.returned h, s) ∧
      ∀ s2 : strategyTwoRandomChoices,
        s2.handlers.map (fun k => k.name) = s.handlers.map (fun k => k.name) →
        ∃ (h2 : namedHandler) (i : Nat), nextServer s2 [x] = (Outcome.returned h2, s2) ∧ h2.name = x ∧
          s.handlers[i]? = some h ∧ s2.handlers[i]? = some h2 := by
  obtain ⟨k, hk, hkx⟩ := hreg
  have hsome : (s.handlers.find? (fun k => k.name == x)).isSome := by
    rw [List.find?_isSome]
    exact ⟨k, hk, by simpa using hkx⟩
  obtain ⟨h, hf⟩ := Option.isSome_iff_exists.mp hsome
  have hx : h.name = x := by simpa using List.find?_some hf
  refine ⟨h, List.mem_of_find?_eq_some hf, hx, ?_, ?_⟩
  · exact nextServer_fast s [x] h (by rw [fastPath_singleton]; exact hf)
  · intro s2 hm
    obtain ⟨h2, i, e, en, e1, e2⟩ := find_name_same_position x s.handlers s2.handlers h hm hf
    exact ⟨h2, i, nextServer_fast s2 [x] h2 (by rw [fastPath_singleton]; exact e), en, e1, e2⟩

theorem nextServer_single_healthy_witness :
    (∃ h ∈ ([⟨"a", 3⟩, ⟨"b", 7⟩, ⟨"c", 0⟩] : List namedHandler), h.name = "b") ∧
    ∃ h ∈ ([⟨"a", 3⟩, ⟨"b", 7⟩, ⟨"c", 0⟩] : List namedHandler), h.name = "b" ∧
      nextServer ⟨[⟨"a", 3⟩, ⟨"b", 7⟩, ⟨"c", 0⟩], [0, 2]⟩ ["b"] =
        (Outcome.returned h, ⟨[⟨"a", 3⟩, ⟨"b", 7⟩, ⟨"c", 0⟩], [0, 2]⟩) ∧
      ∀ s2 : strategyTwoRandomChoices,
        s2.handlers.map (fun k => k.name) =
          ([⟨"a", 3⟩, ⟨"b", 7⟩, ⟨"c", 0⟩] : List namedHandler).map (fun k => k.name) →
        ∃ (h2 : namedHandler) (i : Nat), nextServer s2 ["b"] = (Outcome.returned h2, s2) ∧ h2.name = "b" ∧
          ([⟨"a", 3⟩, ⟨"b", 7⟩, ⟨"c", 0⟩] : List namedHandler)[i]? = some h ∧
          s2.handlers[i]? = some h2 :=
  ⟨⟨⟨"b", 7⟩, by decide, by decide⟩,
    nextServer_single_healthy ⟨[⟨"a", 3⟩, ⟨"b", 7⟩, ⟨"c", 0⟩], [0, 2]⟩ "b"
      ⟨⟨"b", 7⟩, by decide, by decide⟩⟩

/-- Claim C5: when the retry loop returns a backend, it returns it from a pair of distinct
draws `(n1, n2)`: either the first-drawn backend, whose in-flight count is then at most
that of the second, or the second-drawn backend, whose count is then strictly smaller. So
the returned count never exceeds the other one and a tie goes to the first draw. -/
theorem retryLoop_returns_less_loaded (s : strategyTwoRandomChoices) (status : List String)
    (h : namedHandler) (hf : fastPath s status = none)
    (hr : (nextServer s status).1 = Outcome.returned h) :
    ∃ pre n1 n2 h1 h2, s.rand = pre ++ n1 :: n2 :: (nextServer s status).2.rand ∧
      Even pre.length ∧ n1 ≠ n2 ∧
      s.handlers[n1]? = some h1 ∧ s.handlers[n2]? = some h2 ∧
      ((h = h1 ∧ h1.inflight ≤ h2.inflight) ∨ (h = h2 ∧ h2.inflight < h1.inflight)) ∧
      (h1.inflight = h2.inflight → h = h1) := by
  rcases nextServer_returned_cases s status h hr with hf2 | ⟨_, hl⟩
  · rw [hf] at hf2; simp at hf2
  · obtain ⟨pre, n1, n2, h1, h2, e, ev, hne, e1, e2, eh, _⟩ := retryLoop_returned _ _ _ _ _ hl
    refine ⟨pre, n1, n2, h1, h2, e, ev, hne, e1, e2, ?_, ?_⟩
    · by_cases hlt : h2.inflight < h1.inflight
      · right; rw [if_pos hlt] at eh; exact ⟨eh, hlt⟩
      · left; rw [if_neg hlt] at eh; exact ⟨eh, not_lt.mp hlt⟩
    · intro heq
      have hlt : ¬ h2.inflight < h1.inflight := by rw [heq]; exact lt_irrefl _
      rw [if_neg hlt] at eh; exact eh

theorem retryLoop_returns_less_loaded_witness :
    fastPath ⟨[⟨"a", 4⟩, ⟨"b", 4⟩, ⟨"c", 1⟩], [1, 1, 1, 0]⟩ ["a", "b"] = none ∧
    (nextServer ⟨[⟨"a", 4⟩, ⟨"b", 4⟩, ⟨"c", 1⟩], [1, 1, 1, 0]⟩ ["a", "b"]).1
      = Outcome.returned ⟨"b", 4⟩ ∧
    ∃ (pre : List Nat) (n1 n2 : Nat) (h1 h2 : namedHandler),
      [1, 1, 1, 0] = pre ++ n1 :: n2 ::
        (nextServer ⟨[⟨"a", 4⟩, ⟨"b", 4⟩, ⟨"c", 1⟩], [1, 1, 1, 0]⟩ ["a", "b"]).2.rand ∧
      Even pre.length ∧ n1 ≠ n2 ∧
      ([⟨"a", 4⟩, ⟨"b", 4⟩, ⟨"c", 1⟩] : List namedHandler)[n1]? = some h1 ∧
      ([⟨"a", 4⟩, ⟨"b", 4⟩, ⟨"c", 1⟩] : List namedHandler)[n2]? = some h2 ∧
      (((⟨"b", 4⟩ : namedHandler) = h1 ∧ h1.inflight ≤ h2.inflight) ∨
        ((⟨"b", 4⟩ : namedHandler) = h2 ∧ h2.inflight < h1.inflight)) ∧
      (h1.inflight = h2.inflight → (⟨"b", 4⟩ : namedHandler) = h1) :=
  ⟨by decide, by decide,
    retryLoop_returns_less_loaded ⟨[⟨"a", 4⟩, ⟨"b", 4⟩, ⟨"c", 1⟩], [1, 1, 1, 0]⟩ ["a", "b"]
      ⟨"b", 4⟩ (by decide) (by decide)⟩

/-- Claim C7: whenever `nextServer` returns a backend, that backend is an element of the
list of registered backends (so it is one of the non-nil backends passed to `add`), for
every health set and every sequence of sampler values. -/
theorem nextServer_returned_mem_handlers (s : strategyTwoRandomChoices)
    (status : List String) (h : namedHandler)
    (hr : (nextServer s status).1 = Outcome.returned h) : h ∈ s.handlers := by
  rcases nextServer_returned_cases s status h hr with hf | ⟨_, hl⟩
  · exact (fastPath_some s status h hf).2.1
  · obtain ⟨_, _, _, h1, h2, _, _, _, e1, e2, eh, _⟩ := retryLoop_returned _ _ _ _ _ hl
    rw [eh]
    split
    · exact mem_of_getElem?_some e2
    · exact mem_of_getElem?_some e1

theorem nextServer_returned_mem_handlers_witness :
    (nextServer ⟨[⟨"a", 0⟩, ⟨"b", 10⟩, ⟨"c", 0⟩], [2, 2, 1, 0]⟩ ["a", "c"]).1
        = Outcome.returned ⟨"a", 0⟩ ∧
      (⟨"a", 0⟩ : namedHandler) ∈ ([⟨"a", 0⟩, ⟨"b", 10⟩, ⟨"c", 0⟩] : List namedHandler) :=
  ⟨by decide, nextServer_returned_mem_handlers
    ⟨[⟨"a", 0⟩, ⟨"b", 10⟩, ⟨"c", 0⟩], [2, 2, 1, 0]⟩ ["a", "c"] ⟨"a", 0⟩ (by decide)⟩

/-! ## When a returning sequence of draws exists -/

/-- A pair of distinct positions whose first backend is healthy and not more loaded than
the second is accepted at once. -/
theorem retryLoop_accepts (handlers : List namedHandler) (status : List String) (i j : Nat)
    (hi hj : namedHandler) (rest : List Nat) (hne : i ≠ j)
    (ei : handlers[i]? = some hi) (ej : handlers[j]? = some hj)
    (hm : hi.name ∈ status) (hle : hi.inflight ≤ hj.inflight) :
    retryLoop handlers status (i :: j :: rest) = (Outcome.returned hi, rest) := by
  rw [retryLoop_pair _ _ _ _ _ _ _ hne ei ej]
  have hlt : ¬ hj.inflight < hi.inflight := not_lt.mpr hle
  simp [hlt, hm]

theorem lt_length_of_getElem?_some {l : List namedHandler} {i : Nat} {h : namedHandler}
    (e : l[i]? = some h) : i < l.length := by
  obtain ⟨hlt, _⟩ := List.getElem?_eq_some.mp e
  exact hlt

/-- A call can return a given backend from the loop exactly when that backend is healthy
and sits at a position whose count is at most the count found at some other position. -/
theorem retryLoop_returned_pair (handlers : List namedHandler) (status : List String)
    (draws : List Nat) (h : namedHandler) (rest : List Nat)
    (hr : retryLoop handlers status draws = (Outcome.returned h, rest)) :
    ∃ (i j : Nat) (hj : namedHandler), i ≠ j ∧ handlers[i]? = some h ∧
      handlers[j]? = some hj ∧ h.name ∈ status ∧ h.inflight ≤ hj.inflight := by
  obtain ⟨_, n1, n2, h1, h2, _, _, hne, e1, e2, eh, hm⟩ := retryLoop_returned _ _ _ _ _ hr
  by_cases hlt : h2.inflight < h1.inflight
  · rw [if_pos hlt] at eh
    subst eh
    exact ⟨n2, n1, h1, fun e => hne e.symm, e2, e1, hm, le_of_lt hlt⟩
  · rw [if_neg hlt] at eh
    subst eh
    exact ⟨n1, n2, h2, hne, e1, e2, hm, not_lt.mp hlt⟩

/-- Claim C2, the code at the failing input: the pool holds the single backend "a", the
health set holds "a" and one more name, so the stated precondition is met and "a" is the
only healthy backend, yet no sequence of sampler values makes `nextServer` return:
`len(status)` is 2, the fast path is skipped and both draws are always position 0. -/
theorem nextServer_healthy_backend_may_never_return :
    ([⟨"a", 0⟩] : List namedHandler) ≠ [] ∧
    (∃ h ∈ ([⟨"a", 0⟩] : List namedHandler), h.name ∈ ["a", "ghost"]) ∧
    ¬ ∃ draws : List Nat, (∀ d ∈ draws, d < ([⟨"a", 0⟩] : List namedHandler).length) ∧
        ∃ h, (nextServer ⟨[⟨"a", 0⟩], draws⟩ ["a", "ghost"]).1 = Outcome.returned h := by
  refine ⟨by decide, ⟨⟨"a", 0⟩, by decide, by decide⟩, ?_⟩
  rintro ⟨draws, _, h, hr⟩
  rcases nextServer_returned_cases _ _ h hr with hf | ⟨_, hl⟩
  · have := (fastPath_some _ _ h hf).1
    simp at this
  · obtain ⟨i, j, hj, hne, ei, ej, _, _⟩ := retryLoop_returned_pair _ _ _ _ _ hl
    have hi1 := lt_length_of_getElem?_some ei
    have hj1 := lt_length_of_getElem?_some ej
    simp only [List.length_singleton] at hi1 hj1
    omega

/-- What the code does: a finite sequence of in-range sampler values after which
`nextServer` returns exists if and only if the health set is a single name carried by a
registered backend, or some backend whose name is in the health set has an in-flight
count that is at most the count of a backend at another pool position. -/
theorem nextServer_can_return_iff (handlers : List namedHandler) (status : List String) :
    (∃ draws : List Nat, (∀ d ∈ draws, d < handlers.length) ∧
        ∃ h, (nextServer ⟨handlers, draws⟩ status).1 = Outcome.returned h) ↔
      ((∃ x, status = [x] ∧ ∃ h ∈ handlers, h.name = x) ∨
        ∃ (i j : Nat) (hi hj : namedHandler), i ≠ j ∧ handlers[i]? = some hi ∧
          handlers[j]? = some hj ∧ hi.name ∈ status ∧ hi.inflight ≤ hj.inflight) := by
  constructor
  · rintro ⟨draws, _, h, hr⟩
    rcases nextServer_returned_cases _ _ h hr with hf | ⟨_, hl⟩
    · obtain ⟨hs, hmem, _⟩ := fastPath_some _ _ h hf
      exact Or.inl ⟨h.name, hs, h, hmem, rfl⟩
    · obtain ⟨i, j, hj, hne, ei, ej, hm, hle⟩ := retryLoop_returned_pair _ _ _ _ _ hl
      exact Or.inr ⟨i, j, h, hj, hne, ei, ej, hm, hle⟩
  · rintro (⟨x, rfl, k, hk, hkx⟩ | ⟨i, j, hi, hj, hne, ei, ej, hm, hle⟩)
    · refine ⟨[], by simp, ?_⟩
      have hsome : (handlers.find? (fun k => k.name == x)).isSome := by
        rw [List.find?_isSome]
        exact ⟨k, hk, by simpa using hkx⟩
      obtain ⟨h, hf⟩ := Option.isSome_iff_exists.mp hsome
      exact ⟨h, by rw [nextServer_fast ⟨handlers, []⟩ [x] h (by rw [fastPath_singleton]; exact hf)]⟩
    · refine ⟨[i, j], ?_, ?_⟩
      · intro d hd
        simp only [List.mem_cons, List.mem_singleton, List.not_mem_nil, or_false] at hd
        rcases hd with rfl | rfl
        · exact lt_length_of_getElem?_some ei
        · exact lt_length_of_getElem?_some ej
      · cases hf : fastPath ⟨handlers, [i, j]⟩ status with
        | some h => exact ⟨h, by rw [nextServer_fast _ _ h hf]⟩
        | none =>
          refine ⟨hi, ?_⟩
          rw [nextServer_slow _ _ hf]
          simp only
          rw [retryLoop_accepts handlers status i j hi hj [] hne ei ej hm hle]

/-! ## The loop against its specification -/

theorem firstAccepted_cons (handlers : List namedHandler) (status : List String)
    (a b : Nat) (rest : List Nat) :
    firstAccepted handlers status (a :: b :: rest) =
      if accepted handlers status (a, b) = true then lessLoaded handlers (a, b)
      else firstAccepted handlers status rest := by
  unfold firstAccepted
  by_cases hacc : accepted handlers status (a, b) = true
  · simp [drawPairs, List.find?, hacc]
  · have hacc2 : accepted handlers status (a, b) = false := by simpa using hacc
    simp [drawPairs, List.find?, hacc2]

theorem getElem?_some_of_lt (handlers : List namedHandler) (i : Nat)
    (hi : i < handlers.length) : ∃ h, handlers[i]? = some h :=
  ⟨handlers[i], List.getElem?_eq_getElem hi⟩

/-- On in-range draws over a non-empty pool the loop computes exactly the less-loaded
backend of the first accepted pair, and is still looping when no pair is accepted. -/
theorem retryLoop_eq_firstAccepted (handlers : List namedHandler) (status : List String)
    (hne : handlers ≠ []) :
    ∀ draws : List Nat, (∀ d ∈ draws, d < handlers.length) →
      (retryLoop handlers status draws).1 =
        match firstAccepted handlers status draws with
        | some h => Outcome.returned h
        | none => Outcome.looping := by
  have hl : handlers.length ≠ 0 := by simpa using hne
  intro draws
  induction draws using list_pairs_induction with
  | h0 => intro _; simp [retryLoop_nil, hl, firstAccepted, drawPairs]
  | h1 d => intro _; simp [retryLoop_single, hl, firstAccepted, drawPairs]
  | h2 a b tl ih =>
    intro hin
    have ha : a < handlers.length := hin a (by simp)
    have hb : b < handlers.length := hin b (by simp)
    have htl : ∀ d ∈ tl, d < handlers.length := fun d hd => hin d (by simp [hd])
    rw [firstAccepted_cons]
    by_cases hab : a = b
    · subst hab
      rw [retryLoop_same _ _ _ _ hne]
      have hacc : ¬ accepted handlers status (a, a) = true := by simp [accepted]
      rw [if_neg hacc]
      exact ih htl
    · obtain ⟨h1, e1⟩ := getElem?_some_of_lt handlers a ha
      obtain ⟨h2, e2⟩ := getElem?_some_of_lt handlers b hb
      rw [retryLoop_pair _ _ _ _ _ _ _ hab e1 e2]
      have hless : lessLoaded handlers (a, b) =
          some (if h2.inflight < h1.inflight then h2 else h1) := by
        simp [lessLoaded, e1, e2]
      by_cases hm : (if h2.inflight < h1.inflight then h2 else h1).name ∈ status
      · have hacc : accepted handlers status (a, b) = true := by
          simp [accepted, hless, hab, hm]
        rw [if_pos hm, if_pos hacc, hless]
      · have hacc : ¬ accepted handlers status (a, b) = true := by
          simp [accepted, hless, hab, hm]
        rw [if_neg hm, if_neg hacc]
        exact ih htl

/-- Claim C4: when the fast path does not return, `nextServer` on in-range sampler values
returns exactly the less-loaded backend of the first accepted pair of draws, the draws
being taken two at a time and a pair being accepted iff its positions differ and its
less-loaded backend has its name in the health set; when no pair is accepted and the pool
is not empty, the call is still looping. -/
theorem nextServer_general_case (s : strategyTwoRandomChoices) (status : List String)
    (hf : fastPath s status = none) (hin : ∀ d ∈ s.rand, d < s.handlers.length) :
    (∀ h, (nextServer s status).1 = Outcome.returned h ↔
        firstAccepted s.handlers status s.rand = some h) ∧
      (firstAccepted s.handlers status s.rand = none → s.handlers ≠ [] →
        (nextServer s status).1 = Outcome.looping) := by
  rw [nextServer_slow s status hf]
  simp only
  by_cases hne : s.handlers = []
  · have hr : s.rand = [] := by
      cases hrand : s.rand with
      | nil => rfl
      | cons d tl =>
        have := hin d (by simp [hrand])
        simp [hne] at this
    rw [hr, hne]
    refine ⟨fun h => ?_, fun _ hc => absurd rfl hc⟩
    simp [retryLoop_nil, firstAccepted, drawPairs]
  · have key := retryLoop_eq_firstAccepted s.handlers status hne s.rand hin
    rw [key]
    constructor
    · intro h
      cases firstAccepted s.handlers status s.rand with
      | none => simp
      | some k => simp
    · intro hnone _
      rw [hnone]

theorem nextServer_general_case_witness :
    (fastPath ⟨[⟨"a", 0⟩, ⟨"b", 10⟩, ⟨"c", 0⟩], [0, 1, 2, 2, 1, 2, 0]⟩ ["b", "c"] = none ∧
      ∀ d ∈ [0, 1, 2, 2, 1, 2, 0],
        d < ([⟨"a", 0⟩, ⟨"b", 10⟩, ⟨"c", 0⟩] : List namedHandler).length) ∧
    accepted [⟨"a", 0⟩, ⟨"b", 10⟩, ⟨"c", 0⟩] ["b", "c"] (0, 1) = false ∧
    firstAccepted [⟨"a", 0⟩, ⟨"b", 10⟩, ⟨"c", 0⟩] ["b", "c"] [0, 1, 2, 2, 1, 2, 0]
      = some ⟨"c", 0⟩ ∧
    ((∀ h, (nextServer ⟨[⟨"a", 0⟩, ⟨"b", 10⟩, ⟨"c", 0⟩], [0, 1, 2, 2, 1, 2, 0]⟩
          ["b", "c"]).1 = Outcome.returned h ↔
        firstAccepted [⟨"a", 0⟩, ⟨"b", 10⟩, ⟨"c", 0⟩] ["b", "c"] [0, 1, 2, 2, 1, 2, 0]
          = some h) ∧
      (firstAccepted [⟨"a", 0⟩, ⟨"b", 10⟩, ⟨"c", 0⟩] ["b", "c"] [0, 1, 2, 2, 1, 2, 0]
          = none →
        ([⟨"a", 0⟩, ⟨"b", 10⟩, ⟨"c", 0⟩] : List namedHandler) ≠ [] →
        (nextServer ⟨[⟨"a", 0⟩, ⟨"b", 10⟩, ⟨"c", 0⟩], [0, 1, 2, 2, 1, 2, 0]⟩
          ["b", "c"]).1 = Outcome.looping)) :=
  ⟨⟨by decide, by decide⟩, by decide, by decide,
    nextServer_general_case ⟨[⟨"a", 0⟩, ⟨"b", 10⟩, ⟨"c", 0⟩], [0, 1, 2, 2, 1, 2, 0]⟩
      ["b", "c"] (by decide) (by decide)⟩

/-! ## Names of the health set that no backend carries -/

/-- The loop looks at the health set only through the names of registered backends. -/
theorem retryLoop_congr_status (handlers : List namedHandler) (status status2 : List String)
    (hiff : ∀ h ∈ handlers, (h.name ∈ status2 ↔ h.name ∈ status)) :
    ∀ draws : List Nat, retryLoop handlers status2 draws = retryLoop handlers status draws := by
  intro draws
  induction draws using list_pairs_induction with
  | h0 => simp [retryLoop_nil]
  | h1 d => simp [retryLoop_single]
  | h2 a b tl ih =>
    by_cases hl : handlers.length = 0
    · simp [retryLoop, hl]
    have hne : handlers ≠ [] := by simpa using hl
    by_cases hab : a = b
    · subst hab
      rw [retryLoop_same _ _ _ _ hne, retryLoop_same _ _ _ _ hne]
      exact ih
    cases e1 : handlers[a]? with
    | none => simp [retryLoop, hl, hab, e1]
    | some h1 =>
      cases e2 : handlers[b]? with
      | none => simp [retryLoop, hl, hab, e1, e2]
      | some h2 =>
        rw [retryLoop_pair _ _ _ _ _ _ _ hab e1 e2, retryLoop_pair _ _ _ _ _ _ _ hab e1 e2]
        have hmem : (if h2.inflight < h1.inflight then h2 else h1) ∈ handlers := by
          split
          · exact mem_of_getElem?_some e2
          · exact mem_of_getElem?_some e1
        by_cases hm : (if h2.inflight < h1.inflight then h2 else h1).name ∈ status
        · rw [if_pos hm, if_pos ((hiff _ hmem).mpr hm)]
        · rw [if_neg hm, if_neg (fun h2m => hm ((hiff _ hmem).mp h2m))]
          exact ih

/-- Claim C6, the code at the failing input: with the pool "a" (0 in flight), "b" (10 in
flight) and the health set "b", every call returns "b"; after adding the name "ghost",
which no backend carries, no call ever returns, although "b" is still the only healthy
backend: `len(status)` is 2, the fast path is skipped and "b" is compared with the
less-loaded, unhealthy "a" on every pass. -/
theorem nextServer_unregistered_name_changes_result :
    (∀ h ∈ ([⟨"a", 0⟩, ⟨"b", 10⟩] : List namedHandler), h.name ≠ "ghost") ∧
    (∀ draws : List Nat,
      (nextServer ⟨[⟨"a", 0⟩, ⟨"b", 10⟩], draws⟩ ["b"]).1 = Outcome.returned ⟨"b", 10⟩) ∧
    (∀ (draws : List Nat) (h : namedHandler),
      (nextServer ⟨[⟨"a", 0⟩, ⟨"b", 10⟩], draws⟩ ["ghost", "b"]).1 ≠ Outcome.returned h) ∧
    (nextServer ⟨[⟨"a", 0⟩, ⟨"b", 10⟩], [0, 1, 1, 0]⟩ ["ghost", "b"]).1 = Outcome.looping := by
  refine ⟨by decide, ?_, ?_, by decide⟩
  · intro draws
    rw [nextServer_fast ⟨[⟨"a", 0⟩, ⟨"b", 10⟩], draws⟩ ["b"] ⟨"b", 10⟩
      (by rw [fastPath_singleton]; show List.find? _ [_, _] = _; decide)]
  · intro draws h hr
    rcases nextServer_returned_cases _ _ h hr with hf | ⟨_, hl⟩
    · have := (fastPath_some _ _ h hf).1
      simp at this
    · obtain ⟨i, j, hj, hne, ei, ej, hm, hle⟩ := retryLoop_returned_pair _ _ _ _ _ hl
      have hi2 := lt_length_of_getElem?_some ei
      have hj2 := lt_length_of_getElem?_some ej
      simp only [List.length_cons, List.length_nil] at hi2 hj2
      have hcases : (i = 0 ∧ j = 1) ∨ (i = 1 ∧ j = 0) := by omega
      rcases hcases with ⟨rfl, rfl⟩ | ⟨rfl, rfl⟩
      · simp at ei
        subst ei
        revert hm
        decide
      · simp at ei ej
        subst ei ej
        revert hle
        decide

/-- Where the code does ignore a name `x` that no registered backend carries: when the
fast path does not return on `status`, the call on `status` with `x` added (in any
iteration order) has the same outcome and leaves the same sampler. -/
theorem nextServer_ignores_unregistered_name (s : strategyTwoRandomChoices)
    (status status2 : List String) (x : String)
    (hx : ∀ h ∈ s.handlers, h.name ≠ x)
    (hperm : status2.Perm (x :: status))
    (hf : fastPath s status = none) :
    nextServer s status2 = nextServer s status := by
  have hiff : ∀ h ∈ s.handlers, (h.name ∈ status2 ↔ h.name ∈ status) := by
    intro h hh
    rw [hperm.mem_iff]
    simp [hx h hh]
  have hf2 : fastPath s status2 = none := by
    cases hf2 : fastPath s status2 with
    | none => rfl
    | some k =>
      obtain ⟨hs, hk, _⟩ := fastPath_some s status2 k hf2
      have hmem : x ∈ status2 := hperm.mem_iff.mpr (by simp)
      rw [hs] at hmem
      simp only [List.mem_singleton] at hmem
      exact absurd hmem.symm (hx k hk)
  rw [nextServer_slow s status2 hf2, nextServer_slow s status hf,
    retryLoop_congr_status s.handlers status status2 hiff]

/-! ## Two backends with different loads -/

/-- One call on a pool of two backends `A`, `B` with `A` strictly less loaded and both
names healthy: if it returns, it returns `A`. In the order `[B, A]` the two names have to
differ, since the fast path returns the first backend of the single healthy name. -/
theorem nextServer_two_backends_call (A B : namedHandler) (pool : List namedHandler)
    (hpool : pool = [A, B] ∨ (pool = [B, A] ∧ A.name ≠ B.name))
    (hlt : A.inflight < B.inflight) (status : List String) (draws : List Nat)
    (hA : A.name ∈ status) (hB : B.name ∈ status) (h : namedHandler)
    (hr : (nextServer ⟨pool, draws⟩ status).1 = Outcome.returned h) : h = A := by
  rcases nextServer_returned_cases _ _ h hr with hf | ⟨_, hl⟩
  · obtain ⟨hs, _, hfind⟩ := fastPath_some _ _ h hf
    rw [hs] at hA hB
    simp only [List.mem_singleton] at hA hB
    rcases hpool with rfl | ⟨rfl, hne⟩
    · simp only at hfind
      rw [find_name_cons, if_pos hA] at hfind
      simpa using hfind.symm
    · exact absurd (hA.trans hB.symm) hne
  · obtain ⟨i, j, hj, hne, ei, ej, _, hle⟩ := retryLoop_returned_pair _ _ _ _ _ hl
    have hi2 := lt_length_of_getElem?_some ei
    have hj2 := lt_length_of_getElem?_some ej
    simp only at ei ej hi2 hj2
    rcases hpool with rfl | ⟨rfl, _⟩
    · simp only [List.length_cons, List.length_nil] at hi2 hj2
      have hcases : (i = 0 ∧ j = 1) ∨ (i = 1 ∧ j = 0) := by omega
      rcases hcases with ⟨rfl, rfl⟩ | ⟨rfl, rfl⟩
      · simpa using ei.symm
      · simp at ei ej
        subst ei ej
        omega
    · simp only [List.length_cons, List.length_nil] at hi2 hj2
      have hcases : (i = 0 ∧ j = 1) ∨ (i = 1 ∧ j = 0) := by omega
      rcases hcases with ⟨rfl, rfl⟩ | ⟨rfl, rfl⟩
      · simp at ei ej
        subst ei ej
        omega
      · simpa using ei.symm

/-- Claim C8: for a pool of exactly two backends `A` and `B` with
`inflight(A) < inflight(B)` and health sets that contain both names, every call of
`nextServer` that returns, returns `A`, for every sequence of sampler values; so in any
non-empty run of returning calls `A` is selected strictly more often than `B` (which is
never selected). The names are two distinct names when `B` is registered first. -/
theorem nextServer_two_backends_prefers_less_loaded (A B : namedHandler)
    (pool : List namedHandler)
    (hpool : pool = [A, B] ∨ (pool = [B, A] ∧ A.name ≠ B.name))
    (hlt : A.inflight < B.inflight)
    (calls : List (List String × List Nat))
    (hhealthy : ∀ c ∈ calls, A.name ∈ c.1 ∧ B.name ∈ c.1)
    (hret : ∀ c ∈ calls, ∃ h, (nextServer ⟨pool, c.2⟩ c.1).1 = Outcome.returned h) :
    (∀ c ∈ calls, (nextServer ⟨pool, c.2⟩ c.1).1 = Outcome.returned A) ∧
      (calls ≠ [] →
        (calls.map (fun c => (nextServer ⟨pool, c.2⟩ c.1).1)).count (Outcome.returned B) <
          (calls.map (fun c => (nextServer ⟨pool, c.2⟩ c.1).1)).count (Outcome.returned A)) := by
  have hall : ∀ c ∈ calls, (nextServer ⟨pool, c.2⟩ c.1).1 = Outcome.returned A := by
    intro c hc
    obtain ⟨h, hr⟩ := hret c hc
    have := nextServer_two_backends_call A B pool hpool hlt c.1 c.2
      (hhealthy c hc).1 (hhealthy c hc).2 h hr
    rw [hr, this]
  refine ⟨hall, fun hne => ?_⟩
  have hAB : Outcome.returned A ≠ Outcome.returned B := by
    intro e
    simp only [Outcome.returned.injEq] at e
    rw [e] at hlt
    exact lt_irrefl _ hlt
  have hmapA : ∀ r ∈ calls.map (fun c => (nextServer ⟨pool, c.2⟩ c.1).1),
      r = Outcome.returned A := by
    intro r hr
    obtain ⟨c, hc, rfl⟩ := List.mem_map.mp hr
    exact hall c hc
  have hB0 : (calls.map (fun c => (nextServer ⟨pool, c.2⟩ c.1).1)).count
      (Outcome.returned B) = 0 := by
    rw [List.count_eq_zero]
    intro hmem
    exact hAB (hmapA _ hmem).symm
  have hA0 : 0 < (calls.map (fun c => (nextServer ⟨pool, c.2⟩ c.1).1)).count
      (Outcome.returned A) := by
    rw [List.count_pos_iff]
    obtain ⟨c, hc⟩ := List.exists_mem_of_ne_nil calls hne
    exact List.mem_map.mpr ⟨c, hc, hall c hc⟩
  rw [hB0]
  exact hA0

theorem nextServer_two_backends_prefers_less_loaded_witness :
    ((([⟨"B", 10⟩, ⟨"A", 0⟩] : List namedHandler) = [⟨"A", 0⟩, ⟨"B", 10⟩] ∨
        (([⟨"B", 10⟩, ⟨"A", 0⟩] : List namedHandler) = [⟨"B", 10⟩, ⟨"A", 0⟩] ∧
          (⟨"A", 0⟩ : namedHandler).name ≠ (⟨"B", 10⟩ : namedHandler).name)) ∧
      (⟨"A", 0⟩ : namedHandler).inflight < (⟨"B", 10⟩ : namedHandler).inflight ∧
      (∀ c ∈ [(["A", "B"], [0, 1]), (["B", "A"], [1, 1, 1, 0])],
        (⟨"A", 0⟩ : namedHandler).name ∈ c.1 ∧ (⟨"B", 10⟩ : namedHandler).name ∈ c.1) ∧
      (∀ c ∈ [(["A", "B"], [0, 1]), (["B", "A"], [1, 1, 1, 0])],
        ∃ h, (nextServer ⟨[⟨"B", 10⟩, ⟨"A", 0⟩], c.2⟩ c.1).1 = Outcome.returned h)) ∧
    ((∀ c ∈ [(["A", "B"], [0, 1]), (["B", "A"], [1, 1, 1, 0])],
        (nextServer ⟨[⟨"B", 10⟩, ⟨"A", 0⟩], c.2⟩ c.1).1 = Outcome.returned ⟨"A", 0⟩) ∧
      ([(["A", "B"], [0, 1]), (["B", "A"], [1, 1, 1, 0])] ≠ [] →
        ([(["A", "B"], [0, 1]), (["B", "A"], [1, 1, 1, 0])].map
            (fun c => (nextServer ⟨[⟨"B", 10⟩, ⟨"A", 0⟩], c.2⟩ c.1).1)).count
            (Outcome.returned ⟨"B", 10⟩) <
          ([(["A", "B"], [0, 1]), (["B", "A"], [1, 1, 1, 0])].map
            (fun c => (nextServer ⟨[⟨"B", 10⟩, ⟨"A", 0⟩], c.2⟩ c.1).1)).count
            (Outcome.returned ⟨"A", 0⟩))) :=
  have hret : ∀ c ∈ [(["A", "B"], [0, 1]), (["B", "A"], [1, 1, 1, 0])],
      ∃ h, (nextServer ⟨[⟨"B", 10⟩, ⟨"A", 0⟩], c.2⟩ c.1).1 = Outcome.returned h := by
    intro c hc
    simp only [List.mem_cons, List.mem_singleton, List.not_mem_nil, or_false] at hc
    rcases hc with rfl | rfl
    · exact ⟨⟨"A", 0⟩, by decide⟩
    · exact ⟨⟨"A", 0⟩, by decide⟩
  ⟨⟨Or.inr ⟨rfl, by decide⟩, by decide, by decide, hret⟩,
    nextServer_two_backends_prefers_less_loaded ⟨"A", 0⟩ ⟨"B", 10⟩ [⟨"B", 10⟩, ⟨"A", 0⟩]
      (Or.inr ⟨rfl, by decide⟩) (by decide)
      [(["A", "B"], [0, 1]), (["B", "A"], [1, 1, 1, 0])] (by decide) hret⟩

/-! ## Calls outside the precondition -/

/-- When no registered backend is healthy, every pair of in-range draws is rejected: the
loop uses up all complete pairs and goes on looping. -/
theorem retryLoop_all_rejected (handlers : List namedHandler) (status : List String)
    (hne : handlers ≠ []) (hun : ∀ h ∈ handlers, h.name ∉ status) :
    ∀ draws : List Nat, (∀ d ∈ draws, d < handlers.length) →
      (retryLoop handlers status draws).1 = Outcome.looping ∧
        (retryLoop handlers status draws).2.length = draws.length % 2 := by
  have hl : handlers.length ≠ 0 := by simpa using hne
  intro draws
  induction draws using list_pairs_induction with
  | h0 => intro _; simp [retryLoop_nil, hl]
  | h1 d => intro _; simp [retryLoop_single, hl]
  | h2 a b tl ih =>
    intro hin
    have htl : ∀ d ∈ tl, d < handlers.length := fun d hd => hin d (by simp [hd])
    have hlen : (a :: b :: tl).length % 2 = tl.length % 2 := by
      simp only [List.length_cons]; omega
    rw [hlen]
    by_cases hab : a = b
    · subst hab
      rw [retryLoop_same _ _ _ _ hne]
      exact ih htl
    · obtain ⟨h1, e1⟩ := getElem?_some_of_lt handlers a (hin a (by simp))
      obtain ⟨h2, e2⟩ := getElem?_some_of_lt handlers b (hin b (by simp))
      rw [retryLoop_pair _ _ _ _ _ _ _ hab e1 e2]
      have hmem : (if h2.inflight < h1.inflight then h2 else h1) ∈ handlers := by
        split
        · exact mem_of_getElem?_some e2
        · exact mem_of_getElem?_some e1
      rw [if_neg (hun _ hmem)]
      exact ih htl

theorem fastPath_nil (rand : List Nat) (status : List String) :
    fastPath ⟨[], rand⟩ status = none := by
  unfold fastPath
  split <;> simp

theorem retryLoop_empty_pool (status : List String) (draws : List Nat) :
    retryLoop [] status draws = (Outcome.panicked, draws) := by
  match draws with
  | [] => simp [retryLoop]
  | [d] => simp [retryLoop]
  | a :: b :: rest => simp [retryLoop]

/-- Claim C9: if the pool is not empty and no registered backend has its name in the health
set, `nextServer` never returns and reports nothing: on every sequence of in-range sampler
values, of any length, it has used up every complete pair of draws and is still looping. -/
theorem nextServer_no_healthy_backend_loops (s : strategyTwoRandomChoices)
    (status : List String) (hne : s.handlers ≠ [])
    (hun : ∀ h ∈ s.handlers, h.name ∉ status)
    (hin : ∀ d ∈ s.rand, d < s.handlers.length) :
    (nextServer s status).1 = Outcome.looping ∧
      (nextServer s status).2.rand.length = s.rand.length % 2 := by
  have hf : fastPath s status = none := by
    cases hf : fastPath s status with
    | none => rfl
    | some k =>
      obtain ⟨hs, hk, _⟩ := fastPath_some s status k hf
      exact absurd (by rw [hs]; simp) (hun k hk)
  rw [nextServer_slow s status hf]
  exact retryLoop_all_rejected s.handlers status hne hun s.rand hin

theorem nextServer_no_healthy_backend_loops_witness :
    ((([⟨"a", 0⟩, ⟨"b", 10⟩] : List namedHandler) ≠ []) ∧
      (∀ h ∈ ([⟨"a", 0⟩, ⟨"b", 10⟩] : List namedHandler), h.name ∉ ["c"]) ∧
      (∀ d ∈ [0, 1, 1, 0, 1, 1, 0], d < ([⟨"a", 0⟩, ⟨"b", 10⟩] : List namedHandler).length)) ∧
    ((nextServer ⟨[⟨"a", 0⟩, ⟨"b", 10⟩], [0, 1, 1, 0, 1, 1, 0]⟩ ["c"]).1 = Outcome.looping ∧
      (nextServer ⟨[⟨"a", 0⟩, ⟨"b", 10⟩], [0, 1, 1, 0, 1, 1, 0]⟩ ["c"]).2.rand.length
        = [0, 1, 1, 0, 1, 1, 0].length % 2) :=
  ⟨⟨by decide, by decide, by decide⟩,
    nextServer_no_healthy_backend_loops ⟨[⟨"a", 0⟩, ⟨"b", 10⟩], [0, 1, 1, 0, 1, 1, 0]⟩ ["c"]
      (by decide) (by decide) (by decide)⟩

/-- Claim C10, counterexample: on the empty pool the call does fail. With the health set
"a" and sampler values at hand, the outcome is a panic and not a loop that goes on. -/
theorem nextServer_empty_pool_fails :
    (nextServer ⟨[], [0, 0, 0, 1]⟩ ["a"]).1 = Outcome.panicked ∧
      (nextServer ⟨[], [0, 0, 0, 1]⟩ ["a"]).1 ≠ Outcome.looping := by
  decide

/-- Claim C10, amended: on an empty pool, for every health set and every sampler,
`nextServer` returns no backend and does not loop: the first `IntN(0)` panics, so the
call aborts with the selector unchanged and no sampler value drawn. -/
theorem nextServer_empty_pool_panics (status : List String) (draws : List Nat) :
    nextServer ⟨[], draws⟩ status = (Outcome.panicked, ⟨[], draws⟩) := by
  rw [nextServer_slow _ _ (fastPath_nil draws status)]
  simp [retryLoop_empty_pool]

/-! ## Which pools let the loop return -/

/-- The fast path falls through whenever the health set is not a single registered
name. -/
theorem fastPath_none_of_not_single (handlers : List namedHandler) (status : List String)
    (hf : ¬ ∃ x, status = [x] ∧ ∃ h ∈ handlers, h.name = x) (draws : List Nat) :
    fastPath ⟨handlers, draws⟩ status = none := by
  cases hc : fastPath ⟨handlers, draws⟩ status with
  | none => rfl
  | some k =>
    obtain ⟨hs, hk, _⟩ := fastPath_some _ _ k hc
    exact absurd ⟨k.name, hs, k, hk, rfl⟩ hf

/-- A backend returned when the fast path falls through is healthy, and some other pool
position holds a backend that is at least as loaded. -/
theorem nextServer_returned_pair (handlers : List namedHandler) (status : List String)
    (hf : ¬ ∃ x, status = [x] ∧ ∃ h ∈ handlers, h.name = x) (draws : List Nat)
    (h : namedHandler) (hr : (nextServer ⟨handlers, draws⟩ status).1 = Outcome.returned h) :
    ∃ (i j : Nat) (hj : namedHandler), i ≠ j ∧ handlers[i]? = some h ∧
      handlers[j]? = some hj ∧ h.name ∈ status ∧ h.inflight ≤ hj.inflight := by
  rcases nextServer_returned_cases _ _ h hr with hc | ⟨_, hl⟩
  · rw [fastPath_none_of_not_single handlers status hf draws] at hc
    simp at hc
  · exact retryLoop_returned_pair _ _ _ _ _ hl

/-- Claim C14: when the fast path does not apply, a sequence of in-range sampler values on
which `nextServer` returns exists if and only if there are two distinct pool positions
`i`, `j` with `pool[i]` healthy and `inflight(pool[i]) <= inflight(pool[j])`. So a pool of
exactly one backend never returns, and neither does a pool whose only healthy position
holds a backend strictly more loaded than the backend at every other position. -/
theorem nextServer_loop_can_return_iff (handlers : List namedHandler) (status : List String)
    (hf : ¬ ∃ x, status = [x] ∧ ∃ h ∈ handlers, h.name = x) :
    ((∃ draws : List Nat, (∀ d ∈ draws, d < handlers.length) ∧
          ∃ h, (nextServer ⟨handlers, draws⟩ status).1 = Outcome.returned h) ↔
        ∃ (i j : Nat) (hi hj : namedHandler), i ≠ j ∧ handlers[i]? = some hi ∧
          handlers[j]? = some hj ∧ hi.name ∈ status ∧ hi.inflight ≤ hj.inflight) ∧
      (handlers.length = 1 → ∀ (draws : List Nat) (h : namedHandler),
        (nextServer ⟨handlers, draws⟩ status).1 ≠ Outcome.returned h) ∧
      (∀ (k : Nat) (hk : namedHandler), handlers[k]? = some hk →
        (∀ (i : Nat) (hi : namedHandler), handlers[i]? = some hi → hi.name ∈ status → i = k) →
        (∀ (j : Nat) (hj : namedHandler), handlers[j]? = some hj → j ≠ k →
          hj.inflight < hk.inflight) →
        ∀ (draws : List Nat) (h : namedHandler),
          (nextServer ⟨handlers, draws⟩ status).1 ≠ Outcome.returned h) := by
  refine ⟨⟨?_, ?_⟩, ?_, ?_⟩
  · rintro ⟨draws, _, h, hr⟩
    obtain ⟨i, j, hj, hne, ei, ej, hm, hle⟩ :=
      nextServer_returned_pair handlers status hf draws h hr
    exact ⟨i, j, h, hj, hne, ei, ej, hm, hle⟩
  · rintro ⟨i, j, hi, hj, hne, ei, ej, hm, hle⟩
    refine ⟨[i, j], ?_, hi, ?_⟩
    · intro d hd
      simp only [List.mem_cons, List.mem_singleton, List.not_mem_nil, or_false] at hd
      rcases hd with rfl | rfl
      · exact lt_length_of_getElem?_some ei
      · exact lt_length_of_getElem?_some ej
    · rw [nextServer_slow _ _ (fastPath_none_of_not_single handlers status hf [i, j])]
      simp only
      rw [retryLoop_accepts handlers status i j hi hj [] hne ei ej hm hle]
  · intro hlen draws h hr
    obtain ⟨i, j, hj, hne, ei, ej, _, _⟩ :=
      nextServer_returned_pair handlers status hf draws h hr
    have hi1 := lt_length_of_getElem?_some ei
    have hj1 := lt_length_of_getElem?_some ej
    omega
  · intro k hk _ honly hmore draws h hr
    obtain ⟨i, j, hj, hne, ei, ej, hm, hle⟩ :=
      nextServer_returned_pair handlers status hf draws h hr
    have hik : i = k := honly i h ei hm
    subst hik
    have hlt := hmore j hj ej (fun e => hne e.symm)
    have hkh : hk = h := by
      have := ei
      simp_all
    subst hkh
    omega

theorem nextServer_loop_can_return_iff_witness :
    (¬ ∃ x, ["b", "c"] = [x] ∧
        ∃ h ∈ ([⟨"a", 0⟩, ⟨"b", 10⟩, ⟨"c", 0⟩] : List namedHandler), h.name = x) ∧
    ∃ draws : List Nat,
      (∀ d ∈ draws, d < ([⟨"a", 0⟩, ⟨"b", 10⟩, ⟨"c", 0⟩] : List namedHandler).length) ∧
      ∃ h, (nextServer ⟨[⟨"a", 0⟩, ⟨"b", 10⟩, ⟨"c", 0⟩], draws⟩ ["b", "c"]).1
        = Outcome.returned h :=
  have hf : ¬ ∃ x, ["b", "c"] = [x] ∧
      ∃ h ∈ ([⟨"a", 0⟩, ⟨"b", 10⟩, ⟨"c", 0⟩] : List namedHandler), h.name = x := by
    rintro ⟨x, hx, _⟩
    simp at hx
  ⟨hf, (nextServer_loop_can_return_iff [⟨"a", 0⟩, ⟨"b", 10⟩, ⟨"c", 0⟩] ["b", "c"] hf).1.mpr
    ⟨2, 0, ⟨"c", 0⟩, ⟨"a", 0⟩, by decide, by decide, by decide, by decide, by decide⟩⟩

/-- A pair of distinct positions that are both healthy is accepted by the loop, whatever
the two in-flight counts are: the loop returns the less-loaded of the two. -/
theorem retryLoop_accepts_healthy (handlers : List namedHandler) (status : List String)
    (i j : Nat) (hi hj : namedHandler) (rest : List Nat) (hne : i ≠ j)
    (ei : handlers[i]? = some hi) (ej : handlers[j]? = some hj)
    (hmi : hi.name ∈ status) (hmj : hj.name ∈ status) :
    retryLoop handlers status (i :: j :: rest) =
      (Outcome.returned (if hj.inflight < hi.inflight then hj else hi), rest) := by
  rw [retryLoop_pair _ _ _ _ _ _ _ hne ei ej]
  have hm : (if hj.inflight < hi.inflight then hj else hi).name ∈ status := by
    split
    · exact hmj
    · exact hmi
  rw [if_pos hm]

theorem accepted_healthy (handlers : List namedHandler) (status : List String)
    (i j : Nat) (hi hj : namedHandler) (hne : i ≠ j)
    (ei : handlers[i]? = some hi) (ej : handlers[j]? = some hj)
    (hmi : hi.name ∈ status) (hmj : hj.name ∈ status) :
    accepted handlers status (i, j) = true := by
  have hless : lessLoaded handlers (i, j) =
      some (if hj.inflight < hi.inflight then hj else hi) := by
    simp [lessLoaded, ei, ej]
  have hm : (if hj.inflight < hi.inflight then hj else hi).name ∈ status := by
    split
    · exact hmj
    · exact hmi
  simp [accepted, hless, hne, hm]

/-- An even number of in-range draws in front of the sampler either makes the loop return
within them, or is used up pair by pair and leaves the loop at the values that follow. -/
theorem retryLoop_prefix (handlers : List namedHandler) (status : List String)
    (hne : handlers ≠ []) :
    ∀ pre : List Nat, Even pre.length → (∀ d ∈ pre, d < handlers.length) →
      ∀ tail : List Nat,
        (∃ h more, retryLoop handlers status (pre ++ tail) = (Outcome.returned h, more ++ tail)) ∨
          retryLoop handlers status (pre ++ tail) = retryLoop handlers status tail := by
  intro pre
  induction pre using list_pairs_induction with
  | h0 => intro _ _ tail; right; rfl
  | h1 d =>
    intro hev
    rcases hev with ⟨k, hk⟩
    simp only [List.length_singleton] at hk
    omega
  | h2 a b tl ih =>
    intro hev hin tail
    have hev2 : Even tl.length := by
      rcases hev with ⟨k, hk⟩
      simp only [List.length_cons] at hk
      exact ⟨k - 1, by omega⟩
    have htl : ∀ d ∈ tl, d < handlers.length := fun d hd => hin d (by simp [hd])
    have happ : (a :: b :: tl) ++ tail = a :: b :: (tl ++ tail) := rfl
    rw [happ]
    by_cases hab : a = b
    · subst hab
      rw [retryLoop_same _ _ _ _ hne]
      exact ih hev2 htl tail
    · obtain ⟨h1, e1⟩ := getElem?_some_of_lt handlers a (hin a (by simp))
      obtain ⟨h2, e2⟩ := getElem?_some_of_lt handlers b (hin b (by simp))
      rw [retryLoop_pair _ _ _ _ _ _ _ hab e1 e2]
      by_cases hm : (if h2.inflight < h1.inflight then h2 else h1).name ∈ status
      · rw [if_pos hm]
        exact Or.inl ⟨_, tl, rfl⟩
      · rw [if_neg hm]
        exact ih hev2 htl tail

/-- Claim C15: a drawn pair of two distinct pool positions whose backends both have their
names in the health set is accepted in either order, whatever the in-flight counts: the
loop returns the less-loaded of the two. So on in-range draws `nextServer` has returned at
the latest when such a pair has been drawn, and a returning sequence of draws exists. -/
theorem nextServer_healthy_pair_accepted (handlers : List namedHandler)
    (status : List String) (i j : Nat) (hi hj : namedHandler) (hne : i ≠ j)
    (ei : handlers[i]? = some hi) (ej : handlers[j]? = some hj)
    (hmi : hi.name ∈ status) (hmj : hj.name ∈ status) :
    (∀ rest : List Nat, retryLoop handlers status (i :: j :: rest) =
        (Outcome.returned (if hj.inflight < hi.inflight then hj else hi), rest)) ∧
      (∀ rest : List Nat, retryLoop handlers status (j :: i :: rest) =
        (Outcome.returned (if hi.inflight < hj.inflight then hi else hj), rest)) ∧
      accepted handlers status (i, j) = true ∧ accepted handlers status (j, i) = true ∧
      (∀ pre rest : List Nat, Even pre.length → (∀ d ∈ pre, d < handlers.length) →
        ∃ h more, nextServer ⟨handlers, pre ++ i :: j :: rest⟩ status =
          (Outcome.returned h, ⟨handlers, more ++ rest⟩)) ∧
      (∃ draws : List Nat, (∀ d ∈ draws, d < handlers.length) ∧
        ∃ h, (nextServer ⟨handlers, draws⟩ status).1 = Outcome.returned h) := by
  have hne2 : j ≠ i := fun e => hne e.symm
  have hnil : handlers ≠ [] := by
    intro h0
    rw [h0] at ei
    simp at ei
  have hlate : ∀ pre rest : List Nat, Even pre.length → (∀ d ∈ pre, d < handlers.length) →
      ∃ h more, nextServer ⟨handlers, pre ++ i :: j :: rest⟩ status =
        (Outcome.returned h, ⟨handlers, more ++ rest⟩) := by
    intro pre rest hev hin
    cases hf : fastPath ⟨handlers, pre ++ i :: j :: rest⟩ status with
    | some h =>
      exact ⟨h, pre ++ [i, j], by rw [nextServer_fast _ _ h hf]; simp⟩
    | none =>
      rw [nextServer_slow _ _ hf]
      simp only
      rcases retryLoop_prefix handlers status hnil pre hev hin (i :: j :: rest) with
        ⟨h, more, hr⟩ | hr
      · exact ⟨h, more ++ [i, j], by rw [hr]; simp⟩
      · rw [hr, retryLoop_accepts_healthy handlers status i j hi hj rest hne ei ej hmi hmj]
        exact ⟨_, [], rfl⟩
  refine ⟨fun rest => retryLoop_accepts_healthy handlers status i j hi hj rest hne ei ej hmi hmj,
    fun rest => retryLoop_accepts_healthy handlers status j i hj hi rest hne2 ej ei hmj hmi,
    accepted_healthy handlers status i j hi hj hne ei ej hmi hmj,
    accepted_healthy handlers status j i hj hi hne2 ej ei hmj hmi, hlate, ?_⟩
  refine ⟨[i, j], ?_, ?_⟩
  · intro d hd
    simp only [List.mem_cons, List.mem_singleton, List.not_mem_nil, or_false] at hd
    rcases hd with rfl | rfl
    · exact lt_length_of_getElem?_some ei
    · exact lt_length_of_getElem?_some ej
  · obtain ⟨h, more, hr⟩ := hlate [] [] (by simp) (by simp)
    exact ⟨h, by rw [show ([i, j] : List Nat) = [] ++ i :: j :: [] from rfl, hr]⟩

theorem nextServer_healthy_pair_accepted_witness :
    ((1 : Nat) ≠ 2 ∧
      ([⟨"a", 0⟩, ⟨"b", 10⟩, ⟨"c", 3⟩] : List namedHandler)[1]? = some ⟨"b", 10⟩ ∧
      ([⟨"a", 0⟩, ⟨"b", 10⟩, ⟨"c", 3⟩] : List namedHandler)[2]? = some ⟨"c", 3⟩ ∧
      (⟨"b", 10⟩ : namedHandler).name ∈ ["b", "c"] ∧
      (⟨"c", 3⟩ : namedHandler).name ∈ ["b", "c"]) ∧
    retryLoop [⟨"a", 0⟩, ⟨"b", 10⟩, ⟨"c", 3⟩] ["b", "c"] [1, 2, 0, 0] =
        (Outcome.returned ⟨"c", 3⟩, [0, 0]) ∧
    retryLoop [⟨"a", 0⟩, ⟨"b", 10⟩, ⟨"c", 3⟩] ["b", "c"] [2, 1, 0, 0] =
        (Outcome.returned ⟨"c", 3⟩, [0, 0]) ∧
    ∃ h more, nextServer ⟨[⟨"a", 0⟩, ⟨"b", 10⟩, ⟨"c", 3⟩], [0, 1, 2, 2] ++ 1 :: 2 :: [0]⟩
        ["b", "c"] = (Outcome.returned h, ⟨[⟨"a", 0⟩, ⟨"b", 10⟩, ⟨"c", 3⟩], more ++ [0]⟩) :=
  ⟨⟨by decide, by decide, by decide, by decide, by decide⟩,
    (nextServer_healthy_pair_accepted [⟨"a", 0⟩, ⟨"b", 10⟩, ⟨"c", 3⟩] ["b", "c"] 1 2
      ⟨"b", 10⟩ ⟨"c", 3⟩ (by decide) (by decide) (by decide) (by decide) (by decide)).1 [0, 0],
    (nextServer_healthy_pair_accepted [⟨"a", 0⟩, ⟨"b", 10⟩, ⟨"c", 3⟩] ["b", "c"] 1 2
      ⟨"b", 10⟩ ⟨"c", 3⟩ (by decide) (by decide) (by decide) (by decide) (by decide)).2.1 [0, 0],
    (nextServer_healthy_pair_accepted [⟨"a", 0⟩, ⟨"b", 10⟩, ⟨"c", 3⟩] ["b", "c"] 1 2
      ⟨"b", 10⟩ ⟨"c", 3⟩ (by decide) (by decide) (by decide) (by decide)
      (by decide)).2.2.2.2.1 [0, 1, 2, 2] [0] (by decide) (by decide)⟩

/-! ## Registration and the state of the selector -/

/-- Claim C11: `add(h)` puts `h` at the end of the backend list: the new list is the old
one followed by `h`, every earlier backend keeps its position, `len()` grows by one and
the sampler is not touched. Nothing is assumed about the names, so this holds as well when
a backend of the same name is already registered. -/
theorem add_appends (s : strategyTwoRandomChoices) (h : namedHandler) :
    (s.add h).handlers = s.handlers ++ [h] ∧
      (s.add h).len = s.len + 1 ∧
      (∀ i : Nat, i < s.len → (s.add h).handlers[i]? = s.handlers[i]?) ∧
      (s.add h).handlers[s.len]? = some h ∧
      (s.add h).rand = s.rand := by
  refine ⟨rfl, ?_, ?_, ?_, rfl⟩
  · simp [add, len]
  · intro i hi
    simp only [add, len] at hi ⊢
    exact List.getElem?_append_left hi
  · simp [add, len]

theorem add_appends_witness :
    ((⟨[⟨"a", 0⟩, ⟨"b", 2⟩], [1, 0]⟩ : strategyTwoRandomChoices).add ⟨"a", 5⟩).handlers
        = [⟨"a", 0⟩, ⟨"b", 2⟩] ++ [⟨"a", 5⟩] ∧
      ((⟨[⟨"a", 0⟩, ⟨"b", 2⟩], [1, 0]⟩ : strategyTwoRandomChoices).add ⟨"a", 5⟩).len
        = (⟨[⟨"a", 0⟩, ⟨"b", 2⟩], [1, 0]⟩ : strategyTwoRandomChoices).len + 1 :=
  ⟨(add_appends ⟨[⟨"a", 0⟩, ⟨"b", 2⟩], [1, 0]⟩ ⟨"a", 5⟩).1,
    (add_appends ⟨[⟨"a", 0⟩, ⟨"b", 2⟩], [1, 0]⟩ ⟨"a", 5⟩).2.1⟩

/-- The loop only ever drops values from the front of the sampler. -/
theorem retryLoop_rest_suffix (handlers : List namedHandler) (status : List String) :
    ∀ draws : List Nat, ∃ used, draws = used ++ (retryLoop handlers status draws).2 := by
  intro draws
  induction draws using list_pairs_induction with
  | h0 => exact ⟨[], by rw [retryLoop_nil]; split <;> rfl⟩
  | h1 d => exact ⟨[], by rw [retryLoop_single]; split <;> rfl⟩
  | h2 a b tl ih =>
    obtain ⟨used, hu⟩ := ih
    by_cases hl : handlers.length = 0
    · exact ⟨[], by simp [retryLoop, hl]⟩
    have hne : handlers ≠ [] := by simpa using hl
    by_cases hab : a = b
    · subst hab
      rw [retryLoop_same _ _ _ _ hne]
      exact ⟨a :: a :: used, by simp [← hu]⟩
    cases e1 : handlers[a]? with
    | none => exact ⟨[a, b], by simp [retryLoop, hl, hab, e1]⟩
    | some h1 =>
      cases e2 : handlers[b]? with
      | none => exact ⟨[a, b], by simp [retryLoop, hl, hab, e1, e2]⟩
      | some h2 =>
        rw [retryLoop_pair _ _ _ _ _ _ _ hab e1 e2]
        by_cases hm : (if h2.inflight < h1.inflight then h2 else h1).name ∈ status
        · rw [if_pos hm]
          exact ⟨[a, b], by simp⟩
        · rw [if_neg hm]
          exact ⟨a :: b :: used, by simp [← hu]⟩

/-- The memory transformer runs the same loop as `retryLoop` and hands back the backend
list and the health set it was started with. -/
theorem retryLoopMem_eq (handlers : List namedHandler) (status : List String) :
    ∀ draws : List Nat,
      retryLoopMem handlers status draws =
        ((retryLoop handlers status draws).1,
          ⟨handlers, status, (retryLoop handlers status draws).2⟩) := by
  intro draws
  induction draws using list_pairs_induction with
  | h0 => simp only [retryLoopMem, retryLoop]; split <;> rfl
  | h1 d => simp only [retryLoopMem, retryLoop]; split <;> rfl
  | h2 a b tl ih =>
    by_cases hl : handlers.length = 0
    · simp [retryLoopMem, retryLoop, hl]
    have hne : handlers ≠ [] := by simpa using hl
    by_cases hab : a = b
    · subst hab
      rw [retryLoop_same _ _ _ _ hne, ← ih]
      simp [retryLoopMem, hl]
    cases e1 : handlers[a]? with
    | none => simp [retryLoopMem, retryLoop, hl, hab, e1]
    | some h1 =>
      cases e2 : handlers[b]? with
      | none => simp [retryLoopMem, retryLoop, hl, hab, e1, e2]
      | some h2 =>
        rw [retryLoop_pair _ _ _ _ _ _ _ hab e1 e2, retryLoopMem]
        simp only [hl, hab, if_false, e1, e2]
        by_cases hlt : h2.inflight < h1.inflight
        · simp only [hlt, if_true]
          by_cases hm : h2.name ∈ status
          · simp only [hm, if_true]
          · simp only [hm, if_false]
            exact ih
        · simp only [hlt, if_false]
          by_cases hm : h1.name ∈ status
          · simp only [hm, if_true]
          · simp only [hm, if_false]
            exact ih

/-- The memory transformer and `nextServer` are the same call: same outcome and same
sampler afterwards. -/
theorem nextServerMem_eq_nextServer (m : Memory) :
    (nextServerMem m).1 = (nextServer ⟨m.handlers, m.rand⟩ m.status).1 ∧
      (nextServerMem m).2.rand = (nextServer ⟨m.handlers, m.rand⟩ m.status).2.rand := by
  unfold nextServerMem nextServer fastPath
  by_cases hlen : m.status.length = 1
  · simp only [hlen, if_true]
    cases hfind : m.handlers.find?
        (fun h => h.name == m.status.foldl (fun _ name => name) "") with
    | some h => exact ⟨rfl, rfl⟩
    | none =>
      simp only
      rw [retryLoopMem_eq]
      exact ⟨rfl, rfl⟩
  · simp only [hlen, if_false]
    rw [retryLoopMem_eq]
    exact ⟨rfl, rfl⟩

/-- Claim C13, counterexample: a call that returns and yet changes state. On the pool
"a" (9), "b" (4), "c" (0) with the health set "a", "b" and the sampler values 0, 1, 2, 2
the call returns "b" and the memory afterwards differs from the memory before: the
sampler has lost the two values 0 and 1. -/
theorem nextServerMem_changes_sampler :
    (nextServerMem ⟨[⟨"a", 9⟩, ⟨"b", 4⟩, ⟨"c", 0⟩], ["a", "b"], [0, 1, 2, 2]⟩).1
        = Outcome.returned ⟨"b", 4⟩ ∧
      (nextServerMem ⟨[⟨"a", 9⟩, ⟨"b", 4⟩, ⟨"c", 0⟩], ["a", "b"], [0, 1, 2, 2]⟩).2
        ≠ ⟨[⟨"a", 9⟩, ⟨"b", 4⟩, ⟨"c", 0⟩], ["a", "b"], [0, 1, 2, 2]⟩ ∧
      (nextServerMem ⟨[⟨"a", 9⟩, ⟨"b", 4⟩, ⟨"c", 0⟩], ["a", "b"], [0, 1, 2, 2]⟩).2.rand
        = [2, 2] := by
  decide

/-- Claim C13, amended: a call of `nextServer`, whether it returns or not, changes no
state other than the sampler. The backend list afterwards is the list before (the same
backends with the same in-flight counts in the same order, so the swap made for the load
comparison does not reorder the pool) and the health set afterwards is the health set
passed in. The sampler has lost the values drawn from its front, and when the fast path
returns nothing at all has changed. -/
theorem nextServerMem_frame (m : Memory) :
    (nextServerMem m).2.handlers = m.handlers ∧
      (nextServerMem m).2.status = m.status ∧
      (∃ used, m.rand = used ++ (nextServerMem m).2.rand) ∧
      ((∃ x, m.status = [x] ∧ ∃ h ∈ m.handlers, h.name = x) → (nextServerMem m).2 = m) := by
  have hframe : (nextServerMem m).2.handlers = m.handlers ∧
      (nextServerMem m).2.status = m.status := by
    unfold nextServerMem
    by_cases hlen : m.status.length = 1
    · simp only [hlen, if_true]
      cases hfind : m.handlers.find?
          (fun h => h.name == m.status.foldl (fun _ name => name) "") with
      | some h => exact ⟨rfl, rfl⟩
      | none =>
        simp only
        rw [retryLoopMem_eq]
        exact ⟨rfl, rfl⟩
    · simp only [hlen, if_false]
      rw [retryLoopMem_eq]
      exact ⟨rfl, rfl⟩
  refine ⟨hframe.1, hframe.2, ?_, ?_⟩
  · rw [(nextServerMem_eq_nextServer m).2]
    cases hf : fastPath ⟨m.handlers, m.rand⟩ m.status with
    | some h =>
      rw [nextServer_fast _ _ h hf]
      exact ⟨[], rfl⟩
    | none =>
      rw [nextServer_slow _ _ hf]
      exact retryLoop_rest_suffix m.handlers m.status m.rand
  · rintro ⟨x, hx, k, hk, hkx⟩
    have hsome : (m.handlers.find? (fun h => h.name == x)).isSome := by
      rw [List.find?_isSome]
      exact ⟨k, hk, by simpa using hkx⟩
    obtain ⟨h, hfind⟩ := Option.isSome_iff_exists.mp hsome
    unfold nextServerMem
    simp only [hx, List.length_singleton, if_true, foldl_last_singleton, hfind]

theorem nextServerMem_frame_witness :
    (nextServerMem ⟨[⟨"a", 9⟩, ⟨"b", 4⟩, ⟨"c", 0⟩], ["a", "b"], [0, 1, 2, 2]⟩).2.handlers
        = [⟨"a", 9⟩, ⟨"b", 4⟩, ⟨"c", 0⟩] ∧
      (nextServerMem ⟨[⟨"a", 9⟩, ⟨"b", 4⟩, ⟨"c", 0⟩], ["a", "b"], [0, 1, 2, 2]⟩).2.status
        = ["a", "b"] :=
  ⟨(nextServerMem_frame ⟨[⟨"a", 9⟩, ⟨"b", 4⟩, ⟨"c", 0⟩], ["a", "b"], [0, 1, 2, 2]⟩).1,
    (nextServerMem_frame ⟨[⟨"a", 9⟩, ⟨"b", 4⟩, ⟨"c", 0⟩], ["a", "b"], [0, 1, 2, 2]⟩).2.1⟩

/-! ## Several backends of one name -/

/-- The scan for a name stops at the first position that carries it. -/
theorem find_name_first (x : String) :
    ∀ (l : List namedHandler) (i : Nat) (hi : namedHandler), l[i]? = some hi → hi.name = x →
      (∀ (j : Nat) (hj : namedHandler), j < i → l[j]? = some hj → hj.name ≠ x) →
      l.find? (fun k => k.name == x) = some hi := by
  intro l
  induction l with
  | nil => intro i hi e; simp at e
  | cons c tl ih =>
    intro i hi e hx hfirst
    cases i with
    | zero =>
      have hc : c = hi := by simpa using e
      subst hc
      rw [find_name_cons, if_pos hx]
    | succ n =>
      have hc : ¬ c.name = x := hfirst 0 c (Nat.succ_pos n) (by simp)
      rw [find_name_cons, if_neg hc]
      refine ih n hi (by simpa using e) hx ?_
      intro j hj hjn ej
      exact hfirst (j + 1) hj (Nat.succ_lt_succ hjn) (by simpa using ej)

/-- Claim C17: when the health set is exactly the name `x` and several registered backends
carry that name, `nextServer` returns the backend at the lowest pool position among them,
that is the one registered first, and leaves the selector as it was. -/
theorem nextServer_duplicate_name_returns_first (s : strategyTwoRandomChoices) (x : String)
    (i : Nat) (hi : namedHandler) (ei : s.handlers[i]? = some hi) (hx : hi.name = x)
    (hfirst : ∀ (j : Nat) (hj : namedHandler), j < i → s.handlers[j]? = some hj →
      hj.name ≠ x) :
    nextServer s [x] = (Outcome.returned hi, s) :=
  nextServer_fast s [x] hi
    (by rw [fastPath_singleton]; exact find_name_first x s.handlers i hi ei hx hfirst)

theorem nextServer_duplicate_name_returns_first_witness :
    (((((⟨[], [2, 1]⟩ : strategyTwoRandomChoices).add ⟨"a", 1⟩).add ⟨"b", 8⟩).add
          ⟨"b", 3⟩).handlers[1]? = some ⟨"b", 8⟩ ∧
      (⟨"b", 8⟩ : namedHandler).name = "b" ∧
      (∀ (j : Nat) (hj : namedHandler), j < 1 →
        ((((⟨[], [2, 1]⟩ : strategyTwoRandomChoices).add ⟨"a", 1⟩).add ⟨"b", 8⟩).add
          ⟨"b", 3⟩).handlers[j]? = some hj → hj.name ≠ "b")) ∧
    nextServer ((((⟨[], [2, 1]⟩ : strategyTwoRandomChoices).add ⟨"a", 1⟩).add ⟨"b", 8⟩).add
        ⟨"b", 3⟩) ["b"] =
      (Outcome.returned ⟨"b", 8⟩,
        (((⟨[], [2, 1]⟩ : strategyTwoRandomChoices).add ⟨"a", 1⟩).add ⟨"b", 8⟩).add ⟨"b", 3⟩) :=
  have hfirst : ∀ (j : Nat) (hj : namedHandler), j < 1 →
      ((((⟨[], [2, 1]⟩ : strategyTwoRandomChoices).add ⟨"a", 1⟩).add ⟨"b", 8⟩).add
        ⟨"b", 3⟩).handlers[j]? = some hj → hj.name ≠ "b" := by
    intro j hj hlt e
    have hj0 : j = 0 := by omega
    subst hj0
    have : hj = ⟨"a", 1⟩ := by simpa [add] using e.symm
    subst this
    decide
  ⟨⟨by decide, rfl, hfirst⟩,
    nextServer_duplicate_name_returns_first
      ((((⟨[], [2, 1]⟩ : strategyTwoRandomChoices).add ⟨"a", 1⟩).add ⟨"b", 8⟩).add ⟨"b", 3⟩)
      "b" 1 ⟨"b", 8⟩ (by decide) rfl hfirst⟩

/-! ## Seeding the sampler -/

theorem seedLoop_step (seed : Fin 16 → Fin 256) (fuel i seed1 seed2 : Nat)
    (h : i < 16) (h2 : i + 1 < 16) :
    seedLoop seed (fuel + 1) i (seed1, seed2) =
      seedLoop seed fuel (i + 8)
        (((seed1 * 2 ^ 8) % 2 ^ 64 + (seed ⟨i, h⟩).val) % 2 ^ 64,
          ((seed2 * 2 ^ 8) % 2 ^ 64 + (seed ⟨i + 1, h2⟩).val) % 2 ^ 64) := by
  rw [seedLoop]
  simp only [h, h2, dite_true]

theorem seedLoop_done (seed : Fin 16 → Fin 256) (fuel i : Nat) (acc : Nat × Nat)
    (h : ¬ i < 16) : seedLoop seed (fuel + 1) i acc = some acc := by
  obtain ⟨a, b⟩ := acc
  rw [seedLoop]
  simp only [h, dite_false]

/-- Claim C16: for every block of 16 entropy bytes `newRand` builds the two seeds
`seed1 = 256 * seed[0] + seed[8]` and `seed2 = 256 * seed[1] + seed[9]`; both are below
`2 ^ 16`, and a second block that agrees with the first at positions 0, 1, 8 and 9 gives
the same pair of seeds, whatever its other 12 bytes are. -/
theorem newRand_seeds (seed : Fin 16 → Fin 256) :
    newRand (some seed) =
        some (256 * (seed 0).val + (seed 8).val, 256 * (seed 1).val + (seed 9).val) ∧
      256 * (seed 0).val + (seed 8).val < 2 ^ 16 ∧
      256 * (seed 1).val + (seed 9).val < 2 ^ 16 ∧
      ∀ other : Fin 16 → Fin 256, other 0 = seed 0 → other 1 = seed 1 →
        other 8 = seed 8 → other 9 = seed 9 → newRand (some other) = newRand (some seed) := by
  have key : ∀ sd : Fin 16 → Fin 256, newRand (some sd) =
      some (256 * (sd 0).val + (sd 8).val, 256 * (sd 1).val + (sd 9).val) := by
    intro sd
    have h0 := (sd 0).isLt
    have h1 := (sd 1).isLt
    have h8 := (sd 8).isLt
    have h9 := (sd 9).isLt
    have e : newRand (some sd) = some
        ((((0 * 2 ^ 8) % 2 ^ 64 + (sd 0).val) % 2 ^ 64 * 2 ^ 8 % 2 ^ 64 + (sd 8).val) % 2 ^ 64,
          (((0 * 2 ^ 8) % 2 ^ 64 + (sd 1).val) % 2 ^ 64 * 2 ^ 8 % 2 ^ 64 + (sd 9).val)
            % 2 ^ 64) :=
      (seedLoop_step sd 16 0 0 0 (by omega) (by omega)).trans
        ((seedLoop_step sd 15 8 _ _ (by omega) (by omega)).trans
          (seedLoop_done sd 14 16 _ (by omega)))
    rw [e]
    simp only [Option.some.injEq, Prod.mk.injEq]
    constructor <;> omega
  refine ⟨key seed, ?_, ?_, ?_⟩
  · have h0 := (seed 0).isLt
    have h8 := (seed 8).isLt
    omega
  · have h1 := (seed 1).isLt
    have h9 := (seed 9).isLt
    omega
  · intro other e0 e1 e8 e9
    rw [key other, key seed, e0, e1, e8, e9]

theorem newRand_seeds_witness :
    newRand (some (fun i => ⟨i.val + 1, by omega⟩)) = some (265, 522) ∧
      newRand (some (fun i => if i.val % 8 < 2 then ⟨i.val + 1, by omega⟩ else 255)) =
        newRand (some (fun i => ⟨i.val + 1, by omega⟩)) :=
  ⟨(newRand_seeds (fun i => ⟨i.val + 1, by omega⟩)).1,
    (newRand_seeds (fun i => ⟨i.val + 1, by omega⟩)).2.2.2
      (fun i => if i.val % 8 < 2 then ⟨i.val + 1, by omega⟩ else 255) rfl rfl rfl rfl⟩

end Loadbalancer

namespace Types

/-! ## The recognised strategy names -/

/-- Claim C12: `ValidBalancingStrategy(s)` is true if and only if `s` is exactly "wrr" or
exactly "p2c", and false for every other string. -/
theorem validBalancingStrategy_iff (strategy : String) :
    (ValidBalancingStrategy strategy = true ↔ strategy = "wrr" ∨ strategy = "p2c") ∧
      (ValidBalancingStrategy strategy = false ↔ strategy ≠ "wrr" ∧ strategy ≠ "p2c") := by
  unfold ValidBalancingStrategy BalancingStrategyWRR BalancingStrategyP2C
  by_cases h1 : strategy = "wrr"
  · simp [h1]
  · by_cases h2 : strategy = "p2c"
    · simp [h2]
    · simp [h1, h2]

theorem validBalancingStrategy_iff_witness :
    ValidBalancingStrategy "p2c" = true ∧ ValidBalancingStrategy "wrr" = true ∧
      ValidBalancingStrategy "" = false ∧ ValidBalancingStrategy "P2C" = false ∧
      ValidBalancingStrategy " p2c " = false ∧ ValidBalancingStrategy "wrr2" = false :=
  ⟨(validBalancingStrategy_iff "p2c").1.mpr (Or.inr rfl),
    (validBalancingStrategy_iff "wrr").1.mpr (Or.inl rfl),
    (validBalancingStrategy_iff "").2.mpr ⟨by decide, by decide⟩,
    (validBalancingStrategy_iff "P2C").2.mpr ⟨by decide, by decide⟩,
    (validBalancingStrategy_iff " p2c ").2.mpr ⟨by decide, by decide⟩,
    (validBalancingStrategy_iff "wrr2").2.mpr ⟨by decide, by decide⟩⟩

end Types
